import Mathlib

/-!
Verification of `megatron/training/yaml_arguments.py`.

The file embeds the two core functions of the repository —
`merge_yaml_and_cli_args` (the argument merger) and `env_constructor`
together with `env_pattern` (the environment-variable substitution
resolver) — as executable Lean definitions, and proves the spec's claims
about them.

Python values that can appear as attribute values of the involved
`SimpleNamespace` objects (YAML scalars, nested namespaces, lists) are
modelled by the inductive type `PyVal`; their runtime types by `PyType`.
Namespaces are modelled by their attribute dictionary: an association
list from attribute name to value, in insertion order, as `vars(...)`
exposes it.
-/

set_option autoImplicit false

namespace YamlArgs

/-- Model of a Python runtime value as it occurs in this program:
`None`, `bool`, `int`, `float`, `str`, `SimpleNamespace` (nested
mapping, shown by its `vars` dictionary) or `list`.  The `float` payload
is modelled by a rational number: the program never computes with float
values, it only moves them around and inspects their runtime type. -/
inductive PyVal where
  | vNone : PyVal
  | vBool : Bool → PyVal
  | vInt : Int → PyVal
  | vFloat : ℚ → PyVal
  | vStr : String → PyVal
  | vDict : List (String × PyVal) → PyVal
  | vList : List PyVal → PyVal

/-- Model of the Python runtime types (`type(x)`) of the values above. -/
inductive PyType where
  | tNone | tBool | tInt | tFloat | tStr | tDict | tList
  deriving DecidableEq, Repr

/-- Python `type(v)` on the modelled values. -/
def typeOf : PyVal → PyType
  | .vNone => .tNone
  | .vBool _ => .tBool
  | .vInt _ => .tInt
  | .vFloat _ => .tFloat
  | .vStr _ => .tStr
  | .vDict _ => .tDict
  | .vList _ => .tList

/-- Python `v is None`. -/
def isNone : PyVal → Bool
  | .vNone => true
  | _ => false

/-- Python `isinstance(v, t)` for the modelled types.  Among these types
the only strict subclass relation in Python is `bool < int`, so a `bool`
value is an instance of `int`; otherwise instance-of coincides with
exact runtime-type equality. -/
def isinstance (v : PyVal) (t : PyType) : Bool :=
  typeOf v = t ∨ (typeOf v = .tBool ∧ t = .tInt)

/-- A namespace's attribute dictionary: `vars(ns)` as an association
list in insertion order. -/
abbrev NS := List (String × PyVal)

/-- First binding of attribute `k`, if any: `getattr(ns, k)` when it
succeeds, `none` when the attribute is missing. -/
def getattrOpt (ns : NS) (k : String) : Option PyVal :=
  (ns.find? (fun kv => kv.1 = k)).map (fun kv => kv.2)

/-- Python `getattr(ns, k, None)`: the bound value, defaulting to
`None` when the attribute is missing. -/
def getattrD (ns : NS) (k : String) : PyVal :=
  match getattrOpt ns k with
  | some v => v
  | none => .vNone

/-- Python `hasattr(ns, k)`. -/
def hasKey (ns : NS) (k : String) : Bool :=
  (getattrOpt ns k).isSome

/-- Python `setattr(ns, k, v)` on the attribute dictionary: overwrite
the existing binding in place (keeping its position, as dicts do), or
append a new binding at the end. -/
def setKey : NS → String → PyVal → NS
  | [], k, v => [(k, v)]
  | (k', v') :: rest, k, v =>
    if k' = k then (k, v) :: rest else (k', v') :: setKey rest k v

/-- The two `AssertionError`s `merge_yaml_and_cli_args` can raise:
`typeMismatch k` for "Invalid type for 'k' in YAML", `unknownArgument k`
for "Unknown argument 'k' in YAML config".  Each carries the offending
key. -/
inductive MergeError where
  | typeMismatch : String → MergeError
  | unknownArgument : String → MergeError
  deriving DecidableEq, Repr

/-- The first `for` loop of `merge_yaml_and_cli_args`: iterate over
`vars(cli_args).items()`; for each `(key, cli_value)` read
`yaml_value = getattr(yaml_args, key, None)`; if `yaml_value is not None`
assert `isinstance(yaml_value, type(cli_value))` (raising `typeMismatch`
otherwise) and set `args.key = yaml_value`, else set
`args.key = cli_value`.  `acc` is the attribute dictionary of the fresh
`args` namespace built so far. -/
def mergeKeys (yargs : NS) : NS → NS → Except MergeError NS
  | acc, [] => .ok acc
  | acc, (key, cliValue) :: rest =>
    let yamlValue := getattrD yargs key
    if isNone yamlValue then
      mergeKeys yargs (setKey acc key cliValue) rest
    else if isinstance yamlValue (typeOf cliValue) then
      mergeKeys yargs (setKey acc key yamlValue) rest
    else
      .error (.typeMismatch key)

/-- The second `for` loop of `merge_yaml_and_cli_args`: the first key of
`vars(yaml_args)` failing `hasattr(cli_args, key)`, if any. -/
def findUnknown (yargs cargs : NS) : Option String :=
  (yargs.find? (fun kv => !hasKey cargs kv.1)).map (fun kv => kv.1)

/-- `merge_yaml_and_cli_args(yaml_args, cli_args, ignore_unknown_args)`:
build the fresh result namespace by the per-key loop (`mergeKeys`), then,
unless `ignore_unknown_args`, assert that every key of `vars(yaml_args)`
is an attribute of `cli_args` (raising `unknownArgument` at the first
one that is not), and return the result. -/
def merge_yaml_and_cli_args (yargs cargs : NS) (ignore_unknown_args : Bool) :
    Except MergeError NS :=
  match mergeKeys yargs [] cargs with
  | .error e => .error e
  | .ok args =>
    if ignore_unknown_args then .ok args
    else
      match findUnknown yargs cargs with
      | some k => .error (.unknownArgument k)
      | none => .ok args

/-- Variant of the merger that performs the unknown-key check BEFORE the
per-key merge loop.  This definition follows the spec's remark that the
order of the two validation steps is immaterial; it exists only to be
compared with `merge_yaml_and_cli_args`, which follows the source. -/
def merge_unknown_first (yargs cargs : NS) (ignore_unknown_args : Bool) :
    Except MergeError NS :=
  if ignore_unknown_args then
    mergeKeys yargs [] cargs
  else
    match findUnknown yargs cargs with
    | some k => .error (.unknownArgument k)
    | none => mergeKeys yargs [] cargs

end YamlArgs

/-! ## The substitution resolver

`env_pattern = re.compile(r".*?\$\x7b(.*?)\x7d.*?")` and

```
def env_constructor(loader, node):
    value = loader.construct_scalar(node)
    for group in env_pattern.findall(value):
        assert os.environ.get(group) is not None, ...
        value = value.replace(f"$\x7b\x7b{group}\x7d\x7d", os.environ.get(group))
    return value
```

Strings are modelled here as `List Char`.  `pyFindall` reproduces
`env_pattern.findall(value)`: scanning left to right, each occurrence of
the two characters dollar-open-brace yields a match whose group is the
(lazily matched) run of characters up to the first close-brace, provided
no newline intervenes (`.` does not match a newline); scanning resumes
after that close-brace.  When no close-brace is reachable the match
attempt fails and scanning moves on by one character.  `pyReplace`
reproduces `str.replace` (all non-overlapping occurrences, left to
right).  The environment is an explicit map `List Char → Option (List
Char)` standing for `os.environ.get`. -/

namespace YamlArgs

/-- Lazy group capture of `env_pattern` after a dollar-open-brace: the
characters up to the first close-brace, together with the rest of the
input after that close-brace; `none` when a newline or the end of the
input comes first (then the regex match attempt at this position
fails). -/
def takeToBrace : List Char → Option (List Char × List Char)
  | [] => none
  | c :: rest =>
    if c = '}' then some ([], rest)
    else if c = '\n' then none
    else
      match takeToBrace rest with
      | some (name, rest') => some (c :: name, rest')
      | none => none

theorem takeToBrace_length : ∀ (l : List Char) (p : List Char × List Char),
    takeToBrace l = some p → p.2.length < l.length := by
  intro l
  induction l with
  | nil => intro p h; simp [takeToBrace] at h
  | cons c rest ih =>
    intro p h
    by_cases hc : c = '}'
    · rw [takeToBrace, if_pos hc] at h
      simp only [Option.some.injEq] at h
      rw [← h]
      simp
    · by_cases hn : c = '\n'
      · rw [takeToBrace, if_neg hc, if_pos hn] at h
        exact absurd h (by simp)
      · rw [takeToBrace, if_neg hc, if_neg hn] at h
        cases htb : takeToBrace rest with
        | none => rw [htb] at h; exact absurd h (by simp)
        | some q =>
          obtain ⟨nm, r2⟩ := q
          rw [htb] at h
          simp only [Option.some.injEq] at h
          have hlt := ih (nm, r2) htb
          rw [← h]
          simp only [List.length_cons] at *
          omega

/-- `env_pattern.findall(value)`: the list of captured groups, in
scanning order. -/
def pyFindall : List Char → List (List Char)
  | [] => []
  | '$' :: '{' :: rest =>
    match h : takeToBrace rest with
    | some (name, rest') => name :: pyFindall rest'
    | none => pyFindall ('{' :: rest)
  | _ :: rest => pyFindall rest
termination_by l => l.length
decreasing_by
  · have hlt := takeToBrace_length rest (name, rest') h
    simp only [List.length_cons] at *
    omega
  · simp [List.length_cons]
  · simp [List.length_cons]

/-- `value.replace(pat, rep)`: replace every non-overlapping occurrence
of `pat` in `value` by `rep`, scanning left to right.  (`str.replace`
with an empty pattern inserts `rep` everywhere; the program only
replaces patterns that start with a dollar sign, so the guard `pat ≠ []`
never fires there.) -/
def pyReplace : List Char → List Char → List Char → List Char
  | [], _, _ => []
  | c :: rest, pat, rep =>
    if h : pat ≠ [] ∧ pat.isPrefixOf (c :: rest) then
      rep ++ pyReplace ((c :: rest).drop pat.length) pat rep
    else
      c :: pyReplace rest pat rep
termination_by s _ _ => s.length
decreasing_by
  · have hp : 1 ≤ pat.length := by
      cases pat with
      | nil => exact absurd rfl h.1
      | cons p ps => simp
    simp only [List.length_drop, List.length_cons]
    omega
  · simp [List.length_cons]

/-- The literal text of a placeholder for `name`: dollar, open brace,
the name, close brace.  This is both what the regex consumed and the
pattern `f"$\x7b\x7b{group}\x7d\x7d"` handed to `str.replace`. -/
def phText (name : List Char) : List Char :=
  '$' :: '{' :: name ++ ['}']

/-- The `AssertionError` of `env_constructor`: "environment variable
{group} in yaml not found", carrying the unresolved group. -/
inductive SubstError where
  | missingEnv : List Char → SubstError
  deriving DecidableEq, Repr

/-- The `for group in env_pattern.findall(value)` loop of
`env_constructor`: for each captured group in order, assert that the
environment binds it (raising `missingEnv` otherwise) and replace every
occurrence of its placeholder text in the evolving value by the bound
string. -/
def applyGroups (env : List Char → Option (List Char)) :
    List (List Char) → List Char → Except SubstError (List Char)
  | [], value => .ok value
  | g :: gs, value =>
    match env g with
    | none => .error (.missingEnv g)
    | some v => applyGroups env gs (pyReplace value (phText g) v)

/-- `env_constructor(loader, node)` on the scalar string `value` (the
`loader.construct_scalar(node)` step is the identity on the scalar's
text): run the replacement loop over `env_pattern.findall(value)`
computed on the original value. -/
def env_constructor (env : List Char → Option (List Char)) (value : List Char) :
    Except SubstError (List Char) :=
  applyGroups env (pyFindall value) value

end YamlArgs

/-! ## Operational model of the merger on a heap of namespace objects

To settle the frame claim — `merge_yaml_and_cli_args` never mutates its
two inputs and returns a freshly allocated namespace — the function is
embedded a second time, operationally: namespaces live on a heap
addressed by `Nat`, `SimpleNamespace()` allocates a fresh address, and
`getattr`/`setattr`/`vars` read and write the heap.  This model follows
the source line by line; only the object store is made explicit. -/

namespace YamlArgs

/-- The heap: every address below `next` is an allocated namespace
object holding its attribute dictionary; `next` is the next fresh
address. -/
structure PyState where
  heap : Nat → NS
  next : Nat

/-- `SimpleNamespace()`: allocate a fresh empty namespace, returning its
address. -/
def alloc (s : PyState) : Nat × PyState :=
  (s.next, { heap := fun a => if a = s.next then [] else s.heap a, next := s.next + 1 })

/-- `setattr(a, k, v)` on the heap. -/
def setattrH (s : PyState) (a : Nat) (k : String) (v : PyVal) : PyState :=
  { s with heap := fun a' => if a' = a then setKey (s.heap a) k v else s.heap a' }

/-- The first `for` loop of `merge_yaml_and_cli_args`, operationally:
`ay` is the address of `yaml_args`, `aArgs` the address of the fresh
`args`; the loop runs over the items of `vars(cli_args)`.  Each
iteration reads `getattr(yaml_args, key, None)` from the current heap
and writes one attribute of `args`; a failed assertion stops the loop,
leaving the heap as it was at that point (the raised `AssertionError`
propagates). -/
def mergeLoopH (ay aArgs : Nat) : PyState → NS → PyState × Option MergeError
  | s, [] => (s, none)
  | s, (key, cliValue) :: rest =>
    let yamlValue := getattrD (s.heap ay) key
    if isNone yamlValue then
      mergeLoopH ay aArgs (setattrH s aArgs key cliValue) rest
    else if isinstance yamlValue (typeOf cliValue) then
      mergeLoopH ay aArgs (setattrH s aArgs key yamlValue) rest
    else
      (s, some (.typeMismatch key))

/-- `merge_yaml_and_cli_args(yaml_args, cli_args, ignore_unknown_args)`,
operationally: `ay` and `ac` are the addresses of the two inputs.
Allocate `args`, run the per-key loop over the items of
`vars(cli_args)`, then, unless `ignore_unknown_args`, check every key of
`vars(yaml_args)` with `hasattr(cli_args, ·)` on the current heap.  On
success the address of `args` is returned alongside the final heap; on a
failed assertion the error is returned with the heap at that point. -/
def mergeH (s : PyState) (ay ac : Nat) (ignore_unknown_args : Bool) :
    PyState × Except MergeError Nat :=
  let (aArgs, s1) := alloc s
  let (s2, err) := mergeLoopH ay aArgs s1 (s1.heap ac)
  match err with
  | some e => (s2, .error e)
  | none =>
    if ignore_unknown_args then (s2, .ok aArgs)
    else
      match findUnknown (s2.heap ay) (s2.heap ac) with
      | some k => (s2, .error (.unknownArgument k))
      | none => (s2, .ok aArgs)

/-! ## Lemmas about the merger -/

/-- Keys of an attribute dictionary, in order. -/
def keysOf (ns : NS) : List String := ns.map Prod.fst

/-- One iteration of the merge loop succeeds on entry `kv` exactly when
the file value for its key is null or an instance of the baseline
value's runtime type. -/
def passes (yargs : NS) (kv : String × PyVal) : Bool :=
  isNone (getattrD yargs kv.1) || isinstance (getattrD yargs kv.1) (typeOf kv.2)

/-- The value a successful iteration of the merge loop binds for entry
`kv`: the file value when non-null, the baseline value otherwise. -/
def chooseVal (yargs : NS) (kv : String × PyVal) : PyVal :=
  if isNone (getattrD yargs kv.1) then kv.2 else getattrD yargs kv.1

theorem getattrOpt_cons (k' : String) (v' : PyVal) (rest : NS) (k : String) :
    getattrOpt ((k', v') :: rest) k = if k' = k then some v' else getattrOpt rest k := by
  by_cases h : k' = k <;> simp [getattrOpt, List.find?, h]

theorem getattrOpt_of_mem_nodup {ns : NS} {k : String} {v : PyVal}
    (hnd : (keysOf ns).Nodup) (hmem : (k, v) ∈ ns) : getattrOpt ns k = some v := by
  induction ns with
  | nil => simp at hmem
  | cons kv rest ih =>
    obtain ⟨k', v'⟩ := kv
    have hnd' := List.nodup_cons.mp hnd
    rw [getattrOpt_cons]
    rcases List.mem_cons.mp hmem with heq | hmem'
    · cases heq; simp
    · have hk : k' ≠ k := by
        intro hkk
        apply hnd'.1
        have hmk : k ∈ List.map Prod.fst rest := List.mem_map.mpr ⟨(k, v), hmem', rfl⟩
        rw [hkk]
        exact hmk
      rw [if_neg hk]
      exact ih hnd'.2 hmem'

theorem hasKey_iff_mem_keysOf (ns : NS) (k : String) :
    hasKey ns k = true ↔ k ∈ keysOf ns := by
  induction ns with
  | nil => simp [hasKey, getattrOpt, keysOf]
  | cons kv rest ih =>
    obtain ⟨k', v'⟩ := kv
    by_cases h : k' = k
    · subst h
      simp [hasKey, getattrOpt_cons, keysOf]
    · simp only [hasKey, getattrOpt_cons, if_neg h, keysOf, List.map_cons, List.mem_cons]
      rw [← keysOf, ← hasKey]
      rw [ih]
      constructor
      · intro hm; exact Or.inr hm
      · intro hm
        rcases hm with hm | hm
        · exact absurd hm.symm h
        · exact hm

theorem setKey_of_not_hasKey {ns : NS} {k : String} (v : PyVal)
    (h : hasKey ns k = false) : setKey ns k v = ns ++ [(k, v)] := by
  induction ns with
  | nil => simp [setKey]
  | cons kv rest ih =>
    obtain ⟨k', v'⟩ := kv
    simp only [hasKey, getattrOpt_cons] at h
    by_cases hk : k' = k
    · rw [if_pos hk] at h
      simp at h
    · rw [if_neg hk] at h
      simp only [setKey, if_neg hk, List.cons_append, List.cons.injEq, true_and]
      exact ih h

theorem hasKey_append (a b : NS) (k : String) :
    hasKey (a ++ b) k = (hasKey a k || hasKey b k) := by
  induction a with
  | nil => simp [hasKey, getattrOpt]
  | cons kv rest ih =>
    obtain ⟨k', v'⟩ := kv
    by_cases h : k' = k
    · simp [hasKey, getattrOpt_cons, h]
    · simp only [List.cons_append, hasKey, getattrOpt_cons, if_neg h] at *
      exact ih

/-- When every item passes its type check, the merge loop succeeds and
folds `setKey` of the chosen values over the accumulator. -/
theorem mergeKeys_ok_of_passes (yargs : NS) :
    ∀ (items acc : NS), (∀ kv ∈ items, passes yargs kv = true) →
    mergeKeys yargs acc items =
      .ok (items.foldl (fun a kv => setKey a kv.1 (chooseVal yargs kv)) acc) := by
  intro items
  induction items with
  | nil => intro acc _; simp [mergeKeys]
  | cons kv rest ih =>
    intro acc hpass
    obtain ⟨key, cliValue⟩ := kv
    have hp := hpass (key, cliValue) (List.mem_cons_self _ _)
    simp only [passes, Bool.or_eq_true] at hp
    simp only [mergeKeys, List.foldl_cons]
    by_cases hn : isNone (getattrD yargs key) = true
    · rw [if_pos hn]
      rw [ih _ (fun kv hm => hpass kv (List.mem_cons_of_mem _ hm))]
      simp [chooseVal, hn]
    · rw [if_neg hn]
      have hi : isinstance (getattrD yargs key) (typeOf cliValue) = true := by
        rcases hp with hp | hp
        · exact absurd hp hn
        · exact hp
      rw [if_pos hi]
      rw [ih _ (fun kv hm => hpass kv (List.mem_cons_of_mem _ hm))]
      simp [chooseVal, hn]

/-- When some item fails its type check, the merge loop raises a
`typeMismatch` (at the first failing key). -/
theorem mergeKeys_error_of_fail (yargs : NS) :
    ∀ (items acc : NS), (∃ kv ∈ items, passes yargs kv = false) →
    ∃ k, mergeKeys yargs acc items = .error (.typeMismatch k) := by
  intro items
  induction items with
  | nil => intro acc h; simp at h
  | cons kv rest ih =>
    intro acc hex
    obtain ⟨key, cliValue⟩ := kv
    simp only [mergeKeys]
    by_cases hn : isNone (getattrD yargs key) = true
    · rw [if_pos hn]
      apply ih
      rcases hex with ⟨kv', hmem, hfail⟩
      rcases List.mem_cons.mp hmem with heq | hmem'
      · subst heq
        simp [passes, hn] at hfail
      · exact ⟨kv', hmem', hfail⟩
    · rw [if_neg hn]
      by_cases hi : isinstance (getattrD yargs key) (typeOf cliValue) = true
      · rw [if_pos hi]
        apply ih
        rcases hex with ⟨kv', hmem, hfail⟩
        rcases List.mem_cons.mp hmem with heq | hmem'
        · subst heq
          simp [passes, hi] at hfail
        · exact ⟨kv', hmem', hfail⟩
      · rw [if_neg hi]
        exact ⟨key, rfl⟩

/-- Folding `setKey` of fresh keys over an accumulator appends the new
bindings in order. -/
theorem foldl_setKey_append (yargs : NS) :
    ∀ (items acc : NS), (keysOf items).Nodup →
    (∀ kv ∈ items, hasKey acc kv.1 = false) →
    items.foldl (fun a kv => setKey a kv.1 (chooseVal yargs kv)) acc =
      acc ++ items.map (fun kv => (kv.1, chooseVal yargs kv)) := by
  intro items
  induction items with
  | nil => intro acc _ _; simp
  | cons kv rest ih =>
    intro acc hnd hfresh
    obtain ⟨key, cliValue⟩ := kv
    have hnd' := List.nodup_cons.mp hnd
    simp only [List.foldl_cons, List.map_cons]
    rw [setKey_of_not_hasKey _ (hfresh (key, cliValue) (List.mem_cons_self _ _))]
    have hfresh' : ∀ kv' ∈ rest,
        hasKey (acc ++ [(key, chooseVal yargs (key, cliValue))]) kv'.1 = false := by
      intro kv' hm
      rw [hasKey_append]
      have h1 : hasKey acc kv'.1 = false := hfresh kv' (List.mem_cons_of_mem _ hm)
      have hkne : key ≠ kv'.1 := by
        intro he
        apply hnd'.1
        rw [he]
        exact List.mem_map.mpr ⟨kv', hm, rfl⟩
      have h2 : hasKey [(key, chooseVal yargs (key, cliValue))] kv'.1 = false := by
        simp [hasKey, getattrOpt_cons, hkne, getattrOpt]
      rw [h1, h2]
      rfl
    rw [ih _ hnd'.2 hfresh']
    simp

/-- Attribute lookup in the per-entry image of a dictionary. -/
theorem getattrOpt_map_choose (yargs : NS) :
    ∀ (items : NS) (k : String),
    getattrOpt (items.map (fun kv => (kv.1, chooseVal yargs kv))) k =
      (items.find? (fun kv => kv.1 = k)).map (fun kv => chooseVal yargs kv) := by
  intro items
  induction items with
  | nil => intro k; rfl
  | cons kv rest ih =>
    intro k
    obtain ⟨key, v⟩ := kv
    by_cases h : key = k
    · rw [List.find?_cons_of_pos _ (by simp [h])]
      simp [getattrOpt_cons, h]
    · rw [List.find?_cons_of_neg _ (by simp [h])]
      simp only [List.map_cons, getattrOpt_cons, if_neg h]
      exact ih k

theorem keysOf_map_choose (yargs : NS) :
    ∀ items : NS, keysOf (items.map (fun kv => (kv.1, chooseVal yargs kv))) = keysOf items := by
  intro items
  induction items with
  | nil => rfl
  | cons kv rest ih => simp only [keysOf, List.map_cons] at *; rw [ih]

theorem typeOf_eq_tNone {w : PyVal} (h : typeOf w = PyType.tNone) : w = .vNone := by
  cases w <;> simp [typeOf] at h ⊢

theorem isinstance_of_typeOf_eq {v : PyVal} {t : PyType} (h : typeOf v = t) :
    isinstance v t = true := by
  simp [isinstance, h]

/-- When every baseline item passes its type check, the merger (with any
unknown-key flag, provided the check also passes) returns the per-entry
choice image of the baseline dictionary; stated here for `ignore = true`
and duplicate-free baseline keys. -/
theorem merge_ok_char (yargs cargs : NS) (hnd : (keysOf cargs).Nodup)
    (hpass : ∀ kv ∈ cargs, passes yargs kv = true) :
    merge_yaml_and_cli_args yargs cargs true =
      .ok (cargs.map (fun kv => (kv.1, chooseVal yargs kv))) := by
  have h1 := mergeKeys_ok_of_passes yargs cargs [] hpass
  have h2 := foldl_setKey_append yargs cargs [] hnd (by intro kv _; rfl)
  rw [h2, List.nil_append] at h1
  simp [merge_yaml_and_cli_args, h1]

/-- Conversely, a `typeMismatch` raised by the merge loop names a key
whose item fails the type check. -/
theorem mergeKeys_error_elim (yargs : NS) :
    ∀ (items acc : NS) (e : MergeError), mergeKeys yargs acc items = .error e →
    ∃ kv ∈ items, passes yargs kv = false ∧ e = .typeMismatch kv.1 := by
  intro items
  induction items with
  | nil => intro acc e h; simp [mergeKeys] at h
  | cons kv rest ih =>
    intro acc e h
    obtain ⟨key, cliValue⟩ := kv
    simp only [mergeKeys] at h
    by_cases hn : isNone (getattrD yargs key) = true
    · rw [if_pos hn] at h
      rcases ih _ _ h with ⟨kv', hmem, hfail, hek⟩
      exact ⟨kv', List.mem_cons_of_mem _ hmem, hfail, hek⟩
    · rw [if_neg hn] at h
      by_cases hi : isinstance (getattrD yargs key) (typeOf cliValue) = true
      · rw [if_pos hi] at h
        rcases ih _ _ h with ⟨kv', hmem, hfail, hek⟩
        exact ⟨kv', List.mem_cons_of_mem _ hmem, hfail, hek⟩
      · rw [if_neg hi] at h
        simp only [Except.error.injEq] at h
        refine ⟨(key, cliValue), List.mem_cons_self _ _, ?_, by rw [← h]⟩
        simp [passes, hn, hi]

/-- A successful merge loop means every item passed its type check. -/
theorem passes_of_mergeKeys_ok (yargs : NS) (items acc r : NS)
    (h : mergeKeys yargs acc items = .ok r) : ∀ kv ∈ items, passes yargs kv = true := by
  by_contra hcon
  push_neg at hcon
  rcases hcon with ⟨kv, hm, hne⟩
  have hfail : passes yargs kv = false := by
    cases hp : passes yargs kv
    · rfl
    · exact absurd hp hne
  rcases mergeKeys_error_of_fail yargs items acc ⟨kv, hm, hfail⟩ with ⟨k, hk⟩
  rw [hk] at h
  simp at h

/-- A successful run of the full merger returns exactly the result of
its first loop. -/
theorem merge_ok_elim (yargs cargs : NS) (ig : Bool) (r : NS)
    (h : merge_yaml_and_cli_args yargs cargs ig = .ok r) :
    mergeKeys yargs [] cargs = .ok r := by
  unfold merge_yaml_and_cli_args at h
  cases hmk : mergeKeys yargs [] cargs with
  | error e => rw [hmk] at h; simp at h
  | ok args =>
    rw [hmk] at h
    cases ig with
    | true => simp at h; rw [h]
    | false =>
      cases hfu : findUnknown yargs cargs with
      | some k => rw [hfu] at h; simp at h
      | none => rw [hfu] at h; simp at h; rw [h]

theorem getattrOpt_some_elim {ns : NS} {k : String} {v : PyVal}
    (h : getattrOpt ns k = some v) : ∃ kv ∈ ns, kv.1 = k ∧ kv.2 = v := by
  unfold getattrOpt at h
  cases hf : ns.find? (fun kv => kv.1 = k) with
  | none => rw [hf] at h; simp at h
  | some kv =>
    rw [hf] at h
    simp only [Option.map_some', Option.some.injEq] at h
    have hm := List.mem_of_find?_eq_some hf
    have hp := List.find?_some hf
    simp only [decide_eq_true_eq] at hp
    exact ⟨kv, hm, hp, h⟩

theorem hasKey_true_elim {ns : NS} {k : String} (h : hasKey ns k = true) :
    ∃ v, getattrOpt ns k = some v := by
  unfold hasKey at h
  exact Option.isSome_iff_exists.mp h

theorem getattrD_of_not_hasKey {ns : NS} {k : String} (h : hasKey ns k = false) :
    getattrD ns k = .vNone := by
  unfold hasKey at h
  unfold getattrD
  cases hg : getattrOpt ns k with
  | none => rfl
  | some v => rw [hg] at h; simp at h

theorem findUnknown_some_elim {yargs cargs : NS} {k : String}
    (h : findUnknown yargs cargs = some k) :
    ∃ kv ∈ yargs, kv.1 = k ∧ hasKey cargs k = false := by
  unfold findUnknown at h
  cases hf : yargs.find? (fun kv => !hasKey cargs kv.1) with
  | none => rw [hf] at h; simp at h
  | some kv =>
    rw [hf] at h
    simp only [Option.map_some', Option.some.injEq] at h
    have hm := List.mem_of_find?_eq_some hf
    have hp := List.find?_some hf
    simp only [Bool.not_eq_true'] at hp
    refine ⟨kv, hm, h, ?_⟩
    rw [← h]
    exact hp

theorem findUnknown_none_iff (yargs cargs : NS) :
    findUnknown yargs cargs = none ↔ ∀ kv ∈ yargs, hasKey cargs kv.1 = true := by
  unfold findUnknown
  rw [Option.map_eq_none']
  rw [List.find?_eq_none]
  constructor
  · intro h kv hm
    have := h kv hm
    simp only [Bool.not_eq_true'] at this
    simp [this]
  · intro h kv hm
    simp [h kv hm]

/-! ## The claims -/

/-- C1 (counterexample): with file value `True` (a `bool`) and baseline
value `1` (an `int`) under the shared key `"a"`, the file value's
runtime type is NOT exactly the baseline value's type, yet
`merge_yaml_and_cli_args` does not fail with a type mismatch: it
succeeds and takes the file value, because the source checks
`isinstance` and Python's `bool` is a subclass of `int`.  This refutes
the claim that the merge fails with `TypeMismatch` whenever the file
value's runtime type is not exactly the baseline type. -/
theorem C1_counterexample :
    merge_yaml_and_cli_args [("a", .vBool true)] [("a", .vInt 1)] true
      = .ok [("a", .vBool true)]
    ∧ isNone (getattrD [("a", PyVal.vBool true)] "a") = false
    ∧ typeOf (getattrD [("a", PyVal.vBool true)] "a") ≠ typeOf (PyVal.vInt 1) :=
  ⟨rfl, rfl, by decide⟩

/-- C1 (amended): `merge_yaml_and_cli_args` fails with `TypeMismatch`
if and only if some baseline entry's key carries a non-null file value
that is not an `isinstance` of the baseline value's runtime type.
Instance-of, not exact type equality, is the real check: nested mappings
count as their own type and `int` vs `float` are distinct, but a `bool`
file value is accepted where an `int` is expected, `bool` being a
subclass of `int` in Python. -/
theorem C1_merge_typeMismatch_iff (yargs cargs : NS) (ig : Bool) :
    (∃ k, merge_yaml_and_cli_args yargs cargs ig = .error (.typeMismatch k))
    ↔ (∃ kv ∈ cargs, isNone (getattrD yargs kv.1) = false
         ∧ isinstance (getattrD yargs kv.1) (typeOf kv.2) = false) := by
  constructor
  · rintro ⟨k, h⟩
    unfold merge_yaml_and_cli_args at h
    cases hmk : mergeKeys yargs [] cargs with
    | error e =>
      rcases mergeKeys_error_elim yargs cargs [] e hmk with ⟨kv, hm, hf, _⟩
      simp only [passes, Bool.or_eq_false_iff] at hf
      exact ⟨kv, hm, hf.1, hf.2⟩
    | ok args =>
      rw [hmk] at h
      cases ig with
      | true => simp at h
      | false =>
        cases hfu : findUnknown yargs cargs with
        | some k' => rw [hfu] at h; simp at h
        | none => rw [hfu] at h; simp at h
  · rintro ⟨kv, hm, h1, h2⟩
    have hfail : passes yargs kv = false := by simp [passes, h1, h2]
    rcases mergeKeys_error_of_fail yargs cargs [] ⟨kv, hm, hfail⟩ with ⟨k, hk⟩
    refine ⟨k, ?_⟩
    simp [merge_yaml_and_cli_args, hk]

/-- C1 (witness): a concrete instance of the amended claim — a string
file value where an `int` is expected makes the merge fail with
`TypeMismatch`. -/
theorem C1_witness :
    ∃ k, merge_yaml_and_cli_args [("a", .vStr "x")] [("a", .vInt 1)] false
      = .error (.typeMismatch k) :=
  (C1_merge_typeMismatch_iff [("a", .vStr "x")] [("a", .vInt 1)] false).mpr
    ⟨("a", .vInt 1), by simp, by decide, by decide⟩

/-- C2 (counterexample): the file has the key `"b"` which is absent
from the baseline, yet with `ignore_unknown_args = False` the merge does
NOT fail with `UnknownArgument`: the type-check loop over the baseline
keys runs first and raises `TypeMismatch` at key `"a"` before the
unknown-key check is reached.  This refutes the unconditional iff and
shows the order of the two validation steps can affect the outcome. -/
theorem C2_counterexample :
    merge_yaml_and_cli_args [("a", .vStr "x"), ("b", .vInt 1)] [("a", .vInt 1)] false
      = .error (.typeMismatch "a")
    ∧ hasKey [("a", PyVal.vInt 1)] "b" = false
    ∧ hasKey [("a", PyVal.vStr "x"), ("b", PyVal.vInt 1)] "b" = true :=
  ⟨rfl, rfl, rfl⟩

/-- C2 (amended): provided every baseline key's non-null file value
passes the type check (so the first loop cannot fail),
`merge_yaml_and_cli_args` with `ignore_unknown_args = False` fails with
`UnknownArgument` iff the file has a key absent from the baseline; and
under the same proviso running the unknown-key check before the merge
loop yields the same outcome. -/
theorem C2_merge_unknown_iff (yargs cargs : NS)
    (hpass : ∀ kv ∈ cargs, passes yargs kv = true) :
    ((∃ k, merge_yaml_and_cli_args yargs cargs false = .error (.unknownArgument k))
      ↔ ∃ kv ∈ yargs, hasKey cargs kv.1 = false)
    ∧ merge_unknown_first yargs cargs false = merge_yaml_and_cli_args yargs cargs false := by
  have hmk := mergeKeys_ok_of_passes yargs cargs [] hpass
  constructor
  · constructor
    · rintro ⟨k, h⟩
      unfold merge_yaml_and_cli_args at h
      rw [hmk] at h
      cases hfu : findUnknown yargs cargs with
      | some k' =>
        rw [hfu] at h
        simp only [Except.error.injEq, MergeError.unknownArgument.injEq] at h
        rcases findUnknown_some_elim hfu with ⟨kv, hm, hk1, hk2⟩
        exact ⟨kv, hm, by rw [hk1]; exact hk2⟩
      | none => rw [hfu] at h; simp at h
    · intro hex
      cases hfu : findUnknown yargs cargs with
      | some k =>
        refine ⟨k, ?_⟩
        unfold merge_yaml_and_cli_args
        rw [hmk, hfu]
        simp
      | none =>
        rcases hex with ⟨kv, hm, hk⟩
        have := (findUnknown_none_iff yargs cargs).mp hfu kv hm
        rw [this] at hk
        exact absurd hk (by simp)
  · unfold merge_yaml_and_cli_args merge_unknown_first
    rw [hmk]

/-- C2 (witness): a concrete instance of the amended claim — all type
checks pass and the file key `"b"` is unknown, so the merge fails with
`UnknownArgument`. -/
theorem C2_witness :
    ∃ k, merge_yaml_and_cli_args [("b", .vInt 1)] [("a", .vInt 1)] false
      = .error (.unknownArgument k) :=
  (C2_merge_unknown_iff [("b", .vInt 1)] [("a", .vInt 1)] (by decide)).1.mpr
    ⟨("b", .vInt 1), by simp, by decide⟩

theorem isNone_iff {v : PyVal} : isNone v = true ↔ v = .vNone := by
  cases v <;> simp [isNone]

theorem getattrOpt_eq_find? (ns : NS) (k : String) :
    getattrOpt ns k = (ns.find? (fun kv => kv.1 = k)).map (fun kv => kv.2) := rfl

theorem find?_key_of_some {ns : NS} {k : String} {kw : String × PyVal}
    (h : ns.find? (fun kv => kv.1 = k) = some kw) : kw.1 = k := by
  have := List.find?_some h
  simpa using this

theorem map_choose_id (yargs : NS) :
    ∀ cargs : NS, (∀ kv ∈ cargs, chooseVal yargs kv = kv.2) →
    cargs.map (fun kv => (kv.1, chooseVal yargs kv)) = cargs := by
  intro cargs
  induction cargs with
  | nil => intro _; rfl
  | cons kv rest ih =>
    intro h
    obtain ⟨a, b⟩ := kv
    simp only [List.map_cons]
    rw [h (a, b) (List.mem_cons_self _ _), ih (fun kv' hm => h kv' (List.mem_cons_of_mem _ hm))]

/-- C3 (confirmed): when the baseline keys are duplicate-free (as the
attribute dictionary of a namespace always is) and every file entry's
key exists in the baseline with the same runtime type, the merge with
`ignore_unknown_args = True` succeeds; the result binds every file key
to the file value and every other baseline key to the baseline value,
and its key set is exactly the baseline's key set (keys present only in
the file would be dropped — here vacuous).  Moreover when the file and
baseline share no keys the result is the baseline dictionary itself. -/
theorem C3_merge_overrides (yargs cargs : NS) :
    ((keysOf cargs).Nodup →
      (∀ kv ∈ yargs, hasKey cargs kv.1 = true
         ∧ typeOf kv.2 = typeOf (getattrD cargs kv.1)) →
      ∃ r, merge_yaml_and_cli_args yargs cargs true = .ok r
        ∧ (∀ k, hasKey yargs k = true → getattrOpt r k = getattrOpt yargs k)
        ∧ (∀ k, hasKey yargs k = false → getattrOpt r k = getattrOpt cargs k)
        ∧ (∀ k, hasKey r k = hasKey cargs k))
    ∧ ((keysOf cargs).Nodup →
       (∀ kv ∈ yargs, hasKey cargs kv.1 = false) →
       merge_yaml_and_cli_args yargs cargs true = .ok cargs) := by
  constructor
  · intro hnd hmatch
    have hpass : ∀ kv ∈ cargs, passes yargs kv = true := by
      intro kv hm
      unfold passes
      cases hg : getattrOpt yargs kv.1 with
      | none => simp [getattrD, hg, isNone]
      | some v =>
        rcases getattrOpt_some_elim hg with ⟨kv0, hm0, hk0, hv0⟩
        have hty := (hmatch kv0 hm0).2
        rw [hk0, hv0] at hty
        have hcl : getattrD cargs kv.1 = kv.2 := by
          unfold getattrD
          rw [getattrOpt_of_mem_nodup hnd hm]
        rw [hcl] at hty
        have : getattrD yargs kv.1 = v := by unfold getattrD; rw [hg]
        rw [this, isinstance_of_typeOf_eq hty]
        simp
    have hchar := merge_ok_char yargs cargs hnd hpass
    refine ⟨cargs.map (fun kv => (kv.1, chooseVal yargs kv)), hchar, ?_, ?_, ?_⟩
    · intro k hky
      rcases hasKey_true_elim hky with ⟨v, hg⟩
      rcases getattrOpt_some_elim hg with ⟨kv0, hm0, hk0, hv0⟩
      have hcb := (hmatch kv0 hm0).1
      rw [hk0] at hcb
      have hdy : getattrD yargs k = v := by unfold getattrD; rw [hg]
      rw [getattrOpt_map_choose]
      cases hfc : cargs.find? (fun kv => kv.1 = k) with
      | none =>
        rw [hasKey, getattrOpt_eq_find?, hfc] at hcb
        simp at hcb
      | some kw =>
        have hkw := find?_key_of_some hfc
        simp only [Option.map_some']
        by_cases hv : isNone v = true
        · have hvn := isNone_iff.mp hv
          have hty := (hmatch kv0 hm0).2
          rw [hk0, hv0, hvn] at hty
          have hdc : getattrD cargs k = kw.2 := by
            unfold getattrD
            rw [getattrOpt_eq_find?, hfc]
            rfl
          rw [hdc] at hty
          have hwn : kw.2 = .vNone := typeOf_eq_tNone hty.symm
          rw [hg, hvn]
          unfold chooseVal
          rw [hkw, hdy, hvn]
          simp [isNone, hwn]
        · rw [hg]
          unfold chooseVal
          rw [hkw, hdy]
          simp only [Bool.not_eq_true] at hv
          rw [hv]
          simp
    · intro k hky
      rw [getattrOpt_map_choose, getattrOpt_eq_find?]
      cases hfc : cargs.find? (fun kv => kv.1 = k) with
      | none => rfl
      | some kw =>
        have hkw := find?_key_of_some hfc
        simp only [Option.map_some', Option.some.injEq]
        unfold chooseVal
        rw [hkw, getattrD_of_not_hasKey hky]
        simp [isNone]
    · intro k
      have h1 := hasKey_iff_mem_keysOf (cargs.map (fun kv => (kv.1, chooseVal yargs kv))) k
      have h2 := hasKey_iff_mem_keysOf cargs k
      rw [keysOf_map_choose] at h1
      cases hb1 : hasKey (cargs.map (fun kv => (kv.1, chooseVal yargs kv))) k
        <;> cases hb2 : hasKey cargs k <;> simp_all
  · intro hnd hdisj
    have hfree : ∀ kv ∈ cargs, getattrD yargs kv.1 = .vNone := by
      intro kv hm
      cases hg : getattrOpt yargs kv.1 with
      | none => unfold getattrD; rw [hg]
      | some v =>
        rcases getattrOpt_some_elim hg with ⟨kv0, hm0, hk0, _⟩
        have := hdisj kv0 hm0
        rw [hk0] at this
        have hkc : hasKey cargs kv.1 = true := by
          rw [hasKey_iff_mem_keysOf]
          exact List.mem_map.mpr ⟨kv, hm, rfl⟩
        rw [hkc] at this
        exact absurd this (by simp)
    have hpass : ∀ kv ∈ cargs, passes yargs kv = true := by
      intro kv hm
      unfold passes
      rw [hfree kv hm]
      simp [isNone]
    have hchar := merge_ok_char yargs cargs hnd hpass
    rw [hchar]
    rw [map_choose_id yargs cargs]
    intro kv hm
    unfold chooseVal
    rw [hfree kv hm]
    simp [isNone]

/-- C3 (witness): a concrete instance — file overrides
`learning_rate`, baseline keeps `num_epochs`, key set is the
baseline's; and a disjoint file leaves the baseline unchanged. -/
theorem C3_witness :
    (∃ r, merge_yaml_and_cli_args [("learning_rate", .vInt 7)]
        [("learning_rate", .vInt 1), ("num_epochs", .vInt 10)] true = .ok r
      ∧ (∀ k, hasKey [("learning_rate", PyVal.vInt 7)] k = true →
          getattrOpt r k = getattrOpt [("learning_rate", PyVal.vInt 7)] k)
      ∧ (∀ k, hasKey [("learning_rate", PyVal.vInt 7)] k = false →
          getattrOpt r k =
            getattrOpt [("learning_rate", PyVal.vInt 1), ("num_epochs", PyVal.vInt 10)] k)
      ∧ (∀ k, hasKey r k =
          hasKey [("learning_rate", PyVal.vInt 1), ("num_epochs", PyVal.vInt 10)] k))
    ∧ merge_yaml_and_cli_args [("extra", .vStr "s")] [("num_epochs", .vInt 10)] true
        = .ok [("num_epochs", .vInt 10)] :=
  ⟨(C3_merge_overrides [("learning_rate", .vInt 7)]
      [("learning_rate", .vInt 1), ("num_epochs", .vInt 10)]).1
      (by decide) (by decide),
   (C3_merge_overrides [("extra", .vStr "s")] [("num_epochs", .vInt 10)]).2
      (by decide) (by decide)⟩

/-- C4 (confirmed): for a baseline key `k` whose file value is absent or
null, the merger never fails on `k`'s account — no `TypeMismatch` at `k`
(the type check is skipped) and no `UnknownArgument` at `k` — and
whenever it returns a result, `k` is bound to the baseline value.
Baseline keys are assumed duplicate-free, as a namespace's attribute
dictionary always is. -/
theorem C4_baseline_retained (yargs cargs : NS) (ig : Bool) (k : String)
    (hnd : (keysOf cargs).Nodup)
    (hk : hasKey cargs k = true)
    (hnull : isNone (getattrD yargs k) = true) :
    (∀ e, merge_yaml_and_cli_args yargs cargs ig = .error e →
        e ≠ .typeMismatch k ∧ e ≠ .unknownArgument k)
    ∧ (∀ r, merge_yaml_and_cli_args yargs cargs ig = .ok r →
        getattrOpt r k = getattrOpt cargs k) := by
  constructor
  · intro e he
    unfold merge_yaml_and_cli_args at he
    cases hmk : mergeKeys yargs [] cargs with
    | error e' =>
      rw [hmk] at he
      simp only [Except.error.injEq] at he
      rcases mergeKeys_error_elim yargs cargs [] e' hmk with ⟨kv, _, hf, hek⟩
      subst he
      constructor
      · intro hcon
        rw [hek] at hcon
        simp only [MergeError.typeMismatch.injEq] at hcon
        simp [passes, hcon, hnull] at hf
      · intro hcon
        rw [hek] at hcon
        simp at hcon
    | ok args =>
      rw [hmk] at he
      cases ig with
      | true => simp at he
      | false =>
        cases hfu : findUnknown yargs cargs with
        | some k' =>
          rw [hfu] at he
          simp at he
          subst he
          rcases findUnknown_some_elim hfu with ⟨kv, _, _, hkc⟩
          constructor
          · intro hcon; simp at hcon
          · intro hcon
            simp only [MergeError.unknownArgument.injEq] at hcon
            rw [hcon] at hkc
            rw [hk] at hkc
            exact absurd hkc (by simp)
        | none => rw [hfu] at he; simp at he
  · intro r hr
    have hmk := merge_ok_elim yargs cargs ig r hr
    have hpass := passes_of_mergeKeys_ok yargs cargs [] r hmk
    have hchar := mergeKeys_ok_of_passes yargs cargs [] hpass
    rw [foldl_setKey_append yargs cargs [] hnd (by intro kv _; rfl),
        List.nil_append] at hchar
    rw [hmk] at hchar
    simp only [Except.ok.injEq] at hchar
    rw [hchar]
    rw [getattrOpt_map_choose, getattrOpt_eq_find?]
    cases hfc : cargs.find? (fun kv => kv.1 = k) with
    | none => rfl
    | some kw =>
      have hkw := find?_key_of_some hfc
      simp only [Option.map_some', Option.some.injEq]
      unfold chooseVal
      rw [hkw]
      rw [hnull]
      simp

/-- C4 (witness): a concrete instance — the file's value for
`momentum` is null, the merge succeeds, and the result's `momentum` is
the baseline's binding. -/
theorem C4_witness :
    merge_yaml_and_cli_args [("momentum", .vNone)]
        [("batch_size", .vInt 32), ("momentum", .vFloat (9/10))] true
      = .ok [("batch_size", .vInt 32), ("momentum", .vFloat (9/10))]
    ∧ getattrOpt [("batch_size", PyVal.vInt 32), ("momentum", PyVal.vFloat (9/10))]
        "momentum"
      = getattrOpt [("batch_size", PyVal.vInt 32), ("momentum", PyVal.vFloat (9/10))]
        "momentum" :=
  ⟨rfl,
   (C4_baseline_retained [("momentum", .vNone)]
      [("batch_size", .vInt 32), ("momentum", .vFloat (9/10))] true "momentum"
      (by decide) (by decide) (by decide)).2
      [("batch_size", .vInt 32), ("momentum", .vFloat (9/10))] rfl⟩

/-- C7 (confirmed): when the file binds key `k` to a nested mapping,
any successful merge binds `k` in the result to that entire nested
value, wholesale — the merger never recurses into nested structures, it
copies `yaml_value` as one opaque value. -/
theorem C7_nested_wholesale (yargs cargs : NS) (ig : Bool) (k : String)
    (d : List (String × PyVal)) (r : NS)
    (hnd : (keysOf cargs).Nodup)
    (hfile : getattrD yargs k = .vDict d)
    (hk : hasKey cargs k = true)
    (hok : merge_yaml_and_cli_args yargs cargs ig = .ok r) :
    getattrOpt r k = some (.vDict d) := by
  have hmk := merge_ok_elim yargs cargs ig r hok
  have hpass := passes_of_mergeKeys_ok yargs cargs [] r hmk
  have hchar := mergeKeys_ok_of_passes yargs cargs [] hpass
  rw [foldl_setKey_append yargs cargs [] hnd (by intro kv _; rfl),
      List.nil_append] at hchar
  rw [hmk] at hchar
  simp only [Except.ok.injEq] at hchar
  rw [hchar]
  rw [getattrOpt_map_choose]
  cases hfc : cargs.find? (fun kv => kv.1 = k) with
  | none =>
    rw [hasKey, getattrOpt_eq_find?, hfc] at hk
    simp at hk
  | some kw =>
    have hkw := find?_key_of_some hfc
    simp only [Option.map_some', Option.some.injEq]
    unfold chooseVal
    rw [hkw, hfile]
    simp [isNone]

/-- C7 (witness): the spec's end-to-end nested example — file
`optimizer = SimpleNamespace(type="adam", lr=0.001)` against baseline
`optimizer = SimpleNamespace(type="sgd", lr=0.01)` yields the file's
whole nested namespace, not a field-by-field merge. -/
theorem C7_witness :
    merge_yaml_and_cli_args
        [("optimizer", .vDict [("type", .vStr "adam"), ("lr", .vFloat (1/1000))])]
        [("optimizer", .vDict [("type", .vStr "sgd"), ("lr", .vFloat (1/100))])] true
      = .ok [("optimizer", .vDict [("type", .vStr "adam"), ("lr", .vFloat (1/1000))])]
    ∧ getattrOpt [("optimizer",
          PyVal.vDict [("type", PyVal.vStr "adam"), ("lr", PyVal.vFloat (1/1000))])]
        "optimizer"
      = some (.vDict [("type", .vStr "adam"), ("lr", .vFloat (1/1000))]) :=
  ⟨rfl,
   C7_nested_wholesale
     [("optimizer", .vDict [("type", .vStr "adam"), ("lr", .vFloat (1/1000))])]
     [("optimizer", .vDict [("type", .vStr "sgd"), ("lr", .vFloat (1/100))])] true
     "optimizer" [("type", .vStr "adam"), ("lr", .vFloat (1/1000))]
     [("optimizer", .vDict [("type", .vStr "adam"), ("lr", .vFloat (1/1000))])]
     (by decide) rfl rfl rfl⟩

/-- C9 (confirmed): when some baseline key has a non-null file value
failing the type check AND some file key is absent from the baseline,
`merge_yaml_and_cli_args` with `ignore_unknown_args = False` fails with
`TypeMismatch`, never `UnknownArgument`: the per-baseline-key validation
loop runs to its failure before the unknown-key check is reached. -/
theorem C9_typeMismatch_preempts_unknown (yargs cargs : NS)
    (hbad : ∃ kv ∈ cargs, isNone (getattrD yargs kv.1) = false
       ∧ isinstance (getattrD yargs kv.1) (typeOf kv.2) = false)
    (hunk : ∃ kv ∈ yargs, hasKey cargs kv.1 = false) :
    (∃ k, merge_yaml_and_cli_args yargs cargs false = .error (.typeMismatch k))
    ∧ ∀ k, merge_yaml_and_cli_args yargs cargs false ≠ .error (.unknownArgument k) := by
  rcases hbad with ⟨kv, hm, h1, h2⟩
  have hfail : passes yargs kv = false := by simp [passes, h1, h2]
  rcases mergeKeys_error_of_fail yargs cargs [] ⟨kv, hm, hfail⟩ with ⟨k, hk⟩
  constructor
  · refine ⟨k, ?_⟩
    simp [merge_yaml_and_cli_args, hk]
  · intro k' hcon
    unfold merge_yaml_and_cli_args at hcon
    rw [hk] at hcon
    simp at hcon

/-- C9 (witness): the concrete two-key scenario — `"a"` mismatches in
type while `"b"` is unknown; the merge raises the type mismatch. -/
theorem C9_witness :
    (∃ k, merge_yaml_and_cli_args [("a", .vStr "x"), ("b", .vBool true)]
        [("a", .vFloat (1/2))] false = .error (.typeMismatch k))
    ∧ ∀ k, merge_yaml_and_cli_args [("a", .vStr "x"), ("b", .vBool true)]
        [("a", .vFloat (1/2))] false ≠ .error (.unknownArgument k) :=
  C9_typeMismatch_preempts_unknown [("a", .vStr "x"), ("b", .vBool true)]
    [("a", .vFloat (1/2))]
    ⟨("a", .vFloat (1/2)), by simp, by decide, by decide⟩
    ⟨("b", .vBool true), by simp, by decide⟩

/-- The merge loop writes only the fresh `args` object: every other
address of the heap is untouched, and no allocation happens inside the
loop. -/
theorem mergeLoopH_frame (ay aArgs : Nat) :
    ∀ (items : NS) (s : PyState) (a : Nat), a ≠ aArgs →
    (mergeLoopH ay aArgs s items).1.heap a = s.heap a
    ∧ (mergeLoopH ay aArgs s items).1.next = s.next := by
  intro items
  induction items with
  | nil => intro s a ha; exact ⟨rfl, rfl⟩
  | cons kv rest ih =>
    intro s a ha
    obtain ⟨key, cliValue⟩ := kv
    simp only [mergeLoopH]
    by_cases hn : isNone (getattrD (s.heap ay) key) = true
    · rw [if_pos hn]
      have h := ih (setattrH s aArgs key cliValue) a ha
      refine ⟨?_, h.2⟩
      rw [h.1]
      simp [setattrH, ha]
    · rw [if_neg hn]
      by_cases hi : isinstance (getattrD (s.heap ay) key) (typeOf cliValue) = true
      · rw [if_pos hi]
        have h := ih (setattrH s aArgs key (getattrD (s.heap ay) key)) a ha
        refine ⟨?_, h.2⟩
        rw [h.1]
        simp [setattrH, ha]
      · rw [if_neg hi]
        exact ⟨rfl, rfl⟩

/-- C8 (confirmed): on the heap model, `merge_yaml_and_cli_args` never
mutates its two inputs — after the call, whether it returns a result or
raises either assertion, the objects at the addresses of `yaml_args`
and `cli_args` hold exactly their original attribute dictionaries — and
a returned result is the freshly allocated namespace, an object distinct
from both inputs. -/
theorem C8_merge_no_mutation (s : PyState) (ay ac : Nat) (ig : Bool)
    (hy : ay < s.next) (hc : ac < s.next) :
    (mergeH s ay ac ig).1.heap ay = s.heap ay
    ∧ (mergeH s ay ac ig).1.heap ac = s.heap ac
    ∧ ∀ a, (mergeH s ay ac ig).2 = .ok a → a ≠ ay ∧ a ≠ ac ∧ a = s.next := by
  have hyne : ay ≠ s.next := by omega
  have hcne : ac ≠ s.next := by omega
  cases hml2 : mergeLoopH ay s.next
      { heap := fun a' => if a' = s.next then [] else s.heap a', next := s.next + 1 }
      (if ac = s.next then [] else s.heap ac) with
  | mk s2 err =>
    have hs2 : ∀ a, a ≠ s.next → s2.heap a = s.heap a := by
      intro a hane
      have h := mergeLoopH_frame ay s.next
        (if ac = s.next then [] else s.heap ac)
        { heap := fun a' => if a' = s.next then [] else s.heap a', next := s.next + 1 }
        a hane
      rw [hml2] at h
      simp only at h
      rw [h.1]
      simp [hane]
    have hfst : (mergeH s ay ac ig).1 = s2 := by
      unfold mergeH
      simp only [alloc]
      rw [hml2]
      cases err with
      | some e => rfl
      | none =>
        cases ig with
        | true => rfl
        | false =>
          dsimp only
          cases findUnknown (s2.heap ay) (s2.heap ac) with
          | some k => rfl
          | none => rfl
    have hok2 : ∀ a, (mergeH s ay ac ig).2 = .ok a → a = s.next := by
      intro a hok
      unfold mergeH at hok
      simp only [alloc] at hok
      rw [hml2] at hok
      revert hok
      cases err with
      | some e => intro hok; simp at hok
      | none =>
        cases ig with
        | true => intro hok; simp at hok; omega
        | false =>
          dsimp only
          cases findUnknown (s2.heap ay) (s2.heap ac) with
          | some k => intro hok; simp at hok
          | none => intro hok; simp at hok; omega
    refine ⟨?_, ?_, ?_⟩
    · rw [hfst]; exact hs2 ay hyne
    · rw [hfst]; exact hs2 ac hcne
    · intro a hok
      have ha := hok2 a hok
      exact ⟨by omega, by omega, ha⟩

/-- C8 (witness): a concrete two-object heap — merging leaves both
input namespaces untouched and returns the fresh address `2`. -/
theorem C8_witness :
    (mergeH ⟨fun _ => [], 2⟩ 0 1 true).1.heap 0 = []
    ∧ (mergeH ⟨fun _ => [], 2⟩ 0 1 true).1.heap 1 = []
    ∧ (2 ≠ 0 ∧ 2 ≠ 1 ∧ 2 = 2) :=
  ⟨(C8_merge_no_mutation ⟨fun _ => [], 2⟩ 0 1 true (by decide) (by decide)).1,
   (C8_merge_no_mutation ⟨fun _ => [], 2⟩ 0 1 true (by decide) (by decide)).2.1,
   (C8_merge_no_mutation ⟨fun _ => [], 2⟩ 0 1 true (by decide) (by decide)).2.2 2 rfl⟩

/-! ## Lemmas about the substitution resolver

To speak about strings made of literal text interleaved with
placeholders, a scalar is presented as a list of segments.  The
cleanliness side conditions (`litOk`, `nameOk`) delimit the well-formed
inputs on which the resolver behaves as simple interpolation: literal
text and substituted values must not contain a dollar sign, and
placeholder names must avoid the four characters that steer the regex.
Outside this fragment the lazy regex has surprising behaviour of its
own, settled separately with concrete counterexamples. -/

/-- Unfolding lemma: the scanner on a placeholder opener whose brace
closes. -/
theorem pyFindall_ph (rest name rest' : List Char)
    (h : takeToBrace rest = some (name, rest')) :
    pyFindall ('$' :: '{' :: rest) = name :: pyFindall rest' := by
  rw [pyFindall]
  split
  · rename_i name2 rest2 heq
    rw [h] at heq
    simp only [Option.some.injEq, Prod.mk.injEq] at heq
    rw [heq.1, heq.2]
  · rename_i heq
    rw [h] at heq
    cases heq

/-- Unfolding lemma: the scanner skips one character that does not open
a placeholder. -/
theorem pyFindall_cons_ne (c : Char) (rest : List Char) (h : c ≠ '$') :
    pyFindall (c :: rest) = pyFindall rest := by
  rw [pyFindall.eq_def]
  split
  · rename_i heq
    exact absurd heq (by simp)
  · rename_i heq
    rw [List.cons.injEq] at heq
    exact absurd heq.1 h
  · rename_i heq
    rw [List.cons.injEq] at heq
    rw [heq.2]

/-- Unfolding lemma: replacement on the empty string. -/
theorem pyReplace_nil (pat rep : List Char) : pyReplace [] pat rep = [] := by
  rw [pyReplace]

/-- Unfolding lemma: replacement walks past a position where the
pattern does not occur. -/
theorem pyReplace_cons_ne (c : Char) (rest pat rep : List Char)
    (h : ¬(pat.isPrefixOf (c :: rest) = true)) :
    pyReplace (c :: rest) pat rep = c :: pyReplace rest pat rep := by
  rw [pyReplace]
  rw [dif_neg]
  intro hcon
  exact h hcon.2

/-- Unfolding lemma: replacement fires at an occurrence of the
pattern. -/
theorem pyReplace_at (pat suffix rep : List Char) (hne : pat ≠ []) :
    pyReplace (pat ++ suffix) pat rep = rep ++ pyReplace suffix pat rep := by
  have hpre : pat.isPrefixOf (pat ++ suffix) = true := by
    rw [List.isPrefixOf_iff_prefix]
    exact List.prefix_append pat suffix
  rw [pyReplace.eq_def]
  split
  · rename_i heq
    rw [List.append_eq_nil] at heq
    exact absurd heq.1 hne
  · rename_i c rest heq
    rw [← heq]
    rw [dif_pos ⟨hne, hpre⟩]
    rw [List.drop_left]

/-- Literal text that cannot open or steer a placeholder: no dollar
sign. -/
def litOk (s : List Char) : Bool := s.all (fun c => c != '$')

/-- A placeholder name the regex captures as written and the
replacement treats as one token: none of the four steering
characters. -/
def nameOk (n : List Char) : Bool :=
  n.all (fun c => c != '$' && c != '{' && c != '}' && c != '\n')

theorem litOk_spec {s : List Char} (h : litOk s = true) : ∀ c ∈ s, c ≠ '$' := by
  intro c hm
  have := List.all_eq_true.mp h c hm
  simpa using this

theorem nameOk_spec {n : List Char} (h : nameOk n = true) :
    ∀ c ∈ n, c ≠ '$' ∧ c ≠ '{' ∧ c ≠ '}' ∧ c ≠ '\n' := by
  intro c hm
  have := List.all_eq_true.mp h c hm
  simp only [Bool.and_eq_true, bne_iff_ne] at this
  exact ⟨this.1.1.1, this.1.1.2, this.1.2, this.2⟩

/-- One segment of a scalar string: literal text, or a `phText`
placeholder. -/
inductive Seg where
  | lit : List Char → Seg
  | ph : List Char → Seg

/-- The text of one segment. -/
def Seg.render : Seg → List Char
  | .lit s => s
  | .ph n => phText n

/-- The text of a segment list. -/
def render : List Seg → List Char
  | [] => []
  | seg :: rest => seg.render ++ render rest

/-- Well-formedness of one segment (cleanliness of its characters). -/
def segWf : Seg → Bool
  | .lit s => litOk s
  | .ph n => nameOk n

/-- The environment binds a segment's placeholder name, to a clean
value. -/
def envBound (env : List Char → Option (List Char)) : Seg → Bool
  | .lit _ => true
  | .ph n =>
    match env n with
    | some v => litOk v
    | none => false

/-- The placeholder names of a segment list, in order, duplicates
kept — exactly what `env_pattern.findall` captures on its rendering. -/
def phNames : List Seg → List (List Char)
  | [] => []
  | .lit _ :: rest => phNames rest
  | .ph n :: rest => n :: phNames rest

/-- A segment after the replacement of name `n` by value `v`. -/
def substSeg (n v : List Char) : Seg → Seg
  | .lit s => .lit s
  | .ph m => if m = n then .lit v else .ph m

/-- A segment after the whole loop: every bound placeholder became its
value. -/
def resolveSeg (env : List Char → Option (List Char)) : Seg → Seg
  | .lit s => .lit s
  | .ph n =>
    match env n with
    | some v => .lit v
    | none => .ph n

theorem takeToBrace_name (r : List Char) :
    ∀ n : List Char, nameOk n = true → takeToBrace (n ++ '}' :: r) = some (n, r) := by
  intro n
  induction n with
  | nil => intro _; simp [takeToBrace]
  | cons c cs ih =>
    intro h
    have hc := nameOk_spec h c (List.mem_cons_self _ _)
    have hcs : nameOk cs = true := by
      simp only [nameOk, List.all_cons, Bool.and_eq_true] at h
      exact h.2
    simp only [List.cons_append, takeToBrace]
    rw [if_neg hc.2.2.1, if_neg hc.2.2.2]
    simp only [List.append_eq]
    rw [ih hcs]

theorem pyFindall_append_lit (r : List Char) :
    ∀ s : List Char, (∀ c ∈ s, c ≠ '$') → pyFindall (s ++ r) = pyFindall r := by
  intro s
  induction s with
  | nil => intro _; rfl
  | cons c cs ih =>
    intro h
    rw [List.cons_append]
    rw [pyFindall_cons_ne c _ (h c (List.mem_cons_self _ _))]
    exact ih (fun c' hm => h c' (List.mem_cons_of_mem _ hm))

/-- On a well-formed segment list, `env_pattern.findall` captures
exactly the placeholder names, in order. -/
theorem pyFindall_render :
    ∀ segs : List Seg, (∀ seg ∈ segs, segWf seg = true) →
    pyFindall (render segs) = phNames segs := by
  intro segs
  induction segs with
  | nil =>
    intro _
    rw [render, phNames]
    rw [pyFindall]
  | cons seg rest ih =>
    intro h
    have hrest : ∀ seg ∈ rest, segWf seg = true :=
      fun seg hm => h seg (List.mem_cons_of_mem _ hm)
    cases seg with
    | lit s =>
      have hw : litOk s = true := h (.lit s) (List.mem_cons_self _ _)
      rw [render, Seg.render]
      rw [pyFindall_append_lit _ s (litOk_spec hw)]
      rw [phNames]
      exact ih hrest
    | ph n =>
      have hw : nameOk n = true := h (.ph n) (List.mem_cons_self _ _)
      have hshape : Seg.render (.ph n) ++ render rest
          = '$' :: '{' :: (n ++ '}' :: render rest) := by
        simp [Seg.render, phText]
      rw [render, hshape]
      rw [pyFindall_ph _ n (render rest) (takeToBrace_name (render rest) n hw)]
      rw [phNames]
      rw [ih hrest]

/-- Pinning: a placeholder text is a prefix of another placeholder text
followed by anything only when the two names coincide (the close brace
cannot occur inside a clean name). -/
theorem phText_prefix_pin :
    ∀ n m r : List Char, nameOk n = true → nameOk m = true →
    (phText n).isPrefixOf (phText m ++ r) = true → n = m := by
  have key : ∀ n m r : List Char, ('}' ∉ n) → ('}' ∉ m) →
      (n ++ ['}']).isPrefixOf (m ++ '}' :: r) = true → n = m := by
    intro n
    induction n with
    | nil =>
      intro m r _ hm hpre
      cases m with
      | nil => rfl
      | cons b m2 =>
        simp only [List.nil_append, List.cons_append, List.isPrefixOf] at hpre
        simp only [Bool.and_eq_true, beq_iff_eq] at hpre
        exact absurd hpre.1.symm (fun hb => hm (hb ▸ List.mem_cons_self b m2))
    | cons a n2 ihn =>
      intro m r hn hm hpre
      cases m with
      | nil =>
        simp only [List.cons_append, List.nil_append, List.isPrefixOf] at hpre
        simp only [Bool.and_eq_true, beq_iff_eq] at hpre
        exact absurd hpre.1 (fun ha => hn (ha ▸ List.mem_cons_self a n2))
      | cons b m2 =>
        simp only [List.cons_append, List.isPrefixOf] at hpre
        simp only [Bool.and_eq_true, beq_iff_eq] at hpre
        have hn2 : '}' ∉ n2 := fun hmem => hn (List.mem_cons_of_mem _ hmem)
        have hm2 : '}' ∉ m2 := fun hmem => hm (List.mem_cons_of_mem _ hmem)
        rw [hpre.1, ihn m2 r hn2 hm2 hpre.2]
  intro n m r hn hm hpre
  have hn' : '}' ∉ n := fun hmem => (nameOk_spec hn '}' hmem).2.2.1 rfl
  have hm' : '}' ∉ m := fun hmem => (nameOk_spec hm '}' hmem).2.2.1 rfl
  apply key n m r hn' hm'
  simp only [phText, List.cons_append, List.append_assoc, List.isPrefixOf,
    Bool.and_eq_true, beq_iff_eq] at hpre
  rcases hpre with ⟨-, -, hpre⟩
  have : n ++ ['}'] ++ r = n ++ '}' :: r := by simp
  simpa [List.isPrefixOf] using hpre

theorem pyReplace_append_clean (p rep : List Char) :
    ∀ (s r : List Char), (∀ c ∈ s, c ≠ '$') →
    pyReplace (s ++ r) ('$' :: p) rep = s ++ pyReplace r ('$' :: p) rep := by
  intro s
  induction s with
  | nil => intro _ _; rfl
  | cons c cs ih =>
    intro r h
    rw [List.cons_append]
    rw [pyReplace_cons_ne c _ _ rep ?hnp]
    · rw [ih r (fun c' hm => h c' (List.mem_cons_of_mem _ hm))]
      rw [List.cons_append]
    case hnp =>
      intro hcon
      simp only [List.isPrefixOf, Bool.and_eq_true, beq_iff_eq] at hcon
      exact h c (List.mem_cons_self _ _) hcon.1.symm

/-- The text of a placeholder starts with a dollar sign. -/
theorem phText_cons (n : List Char) : phText n = '$' :: ('{' :: n ++ ['}']) := rfl

/-- Replacement of one placeholder's text over a rendered well-formed
segment list substitutes exactly the placeholders carrying that name. -/
theorem pyReplace_render (n v : List Char) (hn : nameOk n = true) :
    ∀ segs : List Seg, (∀ seg ∈ segs, segWf seg = true) →
    pyReplace (render segs) (phText n) v = render (segs.map (substSeg n v)) := by
  intro segs
  induction segs with
  | nil =>
    intro _
    simp only [render, List.map_nil]
    exact pyReplace_nil _ _
  | cons seg rest ih =>
    intro h
    have hrest : ∀ seg ∈ rest, segWf seg = true :=
      fun seg hm => h seg (List.mem_cons_of_mem _ hm)
    cases seg with
    | lit s =>
      have hw : litOk s = true := h (.lit s) (List.mem_cons_self _ _)
      rw [render, Seg.render, List.map_cons]
      rw [phText_cons]
      rw [pyReplace_append_clean _ v s (render rest) (litOk_spec hw)]
      rw [← phText_cons, ih hrest]
      rw [render]
      rfl
    | ph m =>
      have hwm : nameOk m = true := h (.ph m) (List.mem_cons_self _ _)
      by_cases hmn : m = n
      · subst hmn
        rw [render, Seg.render, List.map_cons]
        rw [pyReplace_at (phText m) (render rest) v (by simp [phText])]
        rw [ih hrest]
        simp [render, substSeg, Seg.render]
      · have hnp : ¬((phText n).isPrefixOf (phText m ++ render rest) = true) := by
          intro hcon
          exact hmn (phText_prefix_pin n m (render rest) hn hwm hcon).symm
        have hshape : phText m ++ render rest
            = '$' :: (('{' :: (m ++ ['}'])) ++ render rest) := by
          simp [phText]
        have hcl : ∀ c ∈ ('{' :: (m ++ ['}'])), c ≠ '$' := by
          intro c hm2
          rcases List.mem_cons.mp hm2 with hc | hc
          · rw [hc]; decide
          · rcases List.mem_append.mp hc with hc2 | hc2
            · exact (nameOk_spec hwm c hc2).1
            · rw [List.mem_singleton] at hc2; rw [hc2]; decide
        rw [render, Seg.render, List.map_cons]
        rw [hshape] at hnp ⊢
        rw [phText_cons]
        rw [pyReplace_cons_ne '$' _ _ v (by rw [← phText_cons]; exact hnp)]
        rw [pyReplace_append_clean _ v ('{' :: (m ++ ['}'])) (render rest) hcl]
        rw [← phText_cons, ih hrest]
        rw [render]
        simp [substSeg, hmn, Seg.render, phText]

theorem mem_phNames : ∀ (segs : List Seg) (n : List Char),
    n ∈ phNames segs ↔ Seg.ph n ∈ segs := by
  intro segs
  induction segs with
  | nil => intro n; simp [phNames]
  | cons seg rest ih =>
    intro n
    cases seg with
    | lit s =>
      rw [phNames, ih]
      constructor
      · intro hm; exact List.mem_cons_of_mem _ hm
      · intro hm
        rcases List.mem_cons.mp hm with heq | hm2
        · cases heq
        · exact hm2
    | ph m =>
      rw [phNames]
      constructor
      · intro hm
        rcases List.mem_cons.mp hm with heq | hm2
        · rw [heq]; exact List.mem_cons_self _ _
        · exact List.mem_cons_of_mem _ ((ih n).mp hm2)
      · intro hm
        rcases List.mem_cons.mp hm with heq | hm2
        · injection heq with hnm
          rw [hnm]; exact List.mem_cons_self _ _
        · exact List.mem_cons_of_mem _ ((ih n).mpr hm2)

theorem envBound_ph_elim {env : List Char → Option (List Char)} {n : List Char}
    (h : envBound env (.ph n) = true) : ∃ v, env n = some v ∧ litOk v = true := by
  have h' : (match env n with
      | some v => litOk v
      | none => false) = true := h
  cases hv : env n with
  | none => rw [hv] at h'; cases h'
  | some v => rw [hv] at h'; exact ⟨v, rfl, h'⟩

theorem segWf_substSeg {n v : List Char} (hv : litOk v = true) :
    ∀ seg : Seg, segWf seg = true → segWf (substSeg n v seg) = true := by
  intro seg h
  cases seg with
  | lit s => exact h
  | ph m =>
    rw [substSeg]
    by_cases hmn : m = n
    · rw [if_pos hmn]; exact hv
    · rw [if_neg hmn]; exact h

/-- Running the replacement loop on a rendered well-formed segment list,
with every referenced name bound, substitutes every placeholder whose
name occurs among the groups. -/
theorem applyGroups_render (env : List Char → Option (List Char)) :
    ∀ (gs : List (List Char)) (segs : List Seg),
    (∀ seg ∈ segs, segWf seg = true) →
    (∀ g ∈ gs, nameOk g = true ∧ envBound env (.ph g) = true) →
    (∀ n, Seg.ph n ∈ segs → n ∈ gs) →
    applyGroups env gs (render segs) = .ok (render (segs.map (resolveSeg env))) := by
  intro gs
  induction gs with
  | nil =>
    intro segs _ _ hnames
    rw [applyGroups]
    have hid : segs.map (resolveSeg env) = segs := by
      have : segs.map (resolveSeg env) = segs.map id :=
        List.map_congr_left (by
          intro seg hm
          cases seg with
          | lit s => rfl
          | ph n => exact absurd (hnames n hm) (by simp))
      rw [this, List.map_id]
    rw [hid]
  | cons g gs' ih =>
    intro segs hwf hbound hnames
    obtain ⟨hng, hb⟩ := hbound g (List.mem_cons_self _ _)
    rcases envBound_ph_elim hb with ⟨v, hv, hvok⟩
    rw [applyGroups, hv]
    show applyGroups env gs' (pyReplace (render segs) (phText g) v)
        = Except.ok (render (List.map (resolveSeg env) segs))
    rw [pyReplace_render g v hng segs hwf]
    rw [ih (segs.map (substSeg g v))
      (by
        intro seg hm
        rcases List.mem_map.mp hm with ⟨seg0, hm0, heq⟩
        rw [← heq]
        exact segWf_substSeg hvok seg0 (hwf seg0 hm0))
      (fun g' hm => hbound g' (List.mem_cons_of_mem _ hm))
      (by
        intro n hph
        rcases List.mem_map.mp hph with ⟨seg0, hm0, heq⟩
        cases seg0 with
        | lit s => rw [substSeg] at heq; cases heq
        | ph m =>
          rw [substSeg] at heq
          by_cases hmg : m = g
          · rw [if_pos hmg] at heq; cases heq
          · rw [if_neg hmg] at heq
            injection heq with hnm
            subst hnm
            have := hnames m hm0
            rcases List.mem_cons.mp this with heq2 | hm2
            · exact absurd heq2 hmg
            · exact hm2)]
    rw [List.map_map]
    have : segs.map (resolveSeg env ∘ substSeg g v) = segs.map (resolveSeg env) :=
      List.map_congr_left (by
        intro seg _
        cases seg with
        | lit s => rfl
        | ph m =>
          simp only [Function.comp_apply, substSeg]
          by_cases hmg : m = g
          · rw [if_pos hmg, hmg]
            rw [resolveSeg, resolveSeg, hv]
          · rw [if_neg hmg])
    rw [this]

/-- Running the replacement loop with some referenced name unbound
aborts with the missing-variable assertion at the first unbound
group. -/
theorem applyGroups_missing (env : List Char → Option (List Char)) :
    ∀ (gs : List (List Char)) (value : List Char),
    (∃ g ∈ gs, env g = none) →
    ∃ m, applyGroups env gs value = .error (.missingEnv m) ∧ env m = none := by
  intro gs
  induction gs with
  | nil => intro value h; simp at h
  | cons g gs' ih =>
    intro value h
    cases hv : env g with
    | none => exact ⟨g, by rw [applyGroups, hv], hv⟩
    | some v =>
      rcases h with ⟨g', hm, hg'⟩
      rcases List.mem_cons.mp hm with heq | hm2
      · rw [heq, hv] at hg'
        cases hg'
      · rcases ih (pyReplace value (phText g) v) ⟨g', hm2, hg'⟩ with ⟨m, hm3, hmn⟩
        exact ⟨m, by rw [applyGroups, hv]; exact hm3, hmn⟩

/-- Environment for the C5 counterexample: `X` is bound to the literal
placeholder text for `Y`, and `Y` to `z`. -/
def envC5 : List Char → Option (List Char) :=
  fun n =>
    if n = ['X'] then some ['$', '{', 'Y', '}']
    else if n = ['Y'] then some ['z'] else none

/-- C5 (counterexample): with `X` bound to the four-character text
dollar-brace-`Y`-close-brace and `Y` bound to `z`, the input made of the
placeholder for `X`, a space, and the placeholder for `Y` resolves to
`z z` — NOT to the value of `X` followed by a space and `z`, which is
what replacing each occurrence of a placeholder with the value bound to
its name would give.  The loop replaces group by group over the evolving
string, so the text substituted for `X` in the first step is rewritten
again by the second step.  This refutes the claim over every input
string: it holds only when substituted values cannot themselves spell
placeholder text. -/
theorem C5_counterexample :
    env_constructor envC5 ['$', '{', 'X', '}', ' ', '$', '{', 'Y', '}']
      = .ok ['z', ' ', 'z']
    ∧ envC5 ['X'] = some (phText ['Y'])
    ∧ envC5 ['Y'] = some ['z']
    ∧ ['z', ' ', 'z'] ≠ phText ['Y'] ++ [' ', 'z'] := by
  refine ⟨?_, rfl, rfl, by decide⟩
  have h1 : pyFindall ['$', '{', 'X', '}', ' ', '$', '{', 'Y', '}'] = [['X'], ['Y']] := by
    rw [pyFindall_ph ['X', '}', ' ', '$', '{', 'Y', '}'] ['X'] [' ', '$', '{', 'Y', '}']
      (by decide)]
    rw [pyFindall_cons_ne ' ' _ (by decide)]
    rw [pyFindall_ph ['Y', '}'] ['Y'] [] (by decide)]
    rw [pyFindall]
  have h2 : pyReplace ['$', '{', 'X', '}', ' ', '$', '{', 'Y', '}']
      (phText ['X']) ['$', '{', 'Y', '}']
      = ['$', '{', 'Y', '}', ' ', '$', '{', 'Y', '}'] := by
    have hsplit : ['$', '{', 'X', '}', ' ', '$', '{', 'Y', '}']
        = phText ['X'] ++ [' ', '$', '{', 'Y', '}'] := rfl
    rw [hsplit, pyReplace_at _ _ _ (by decide)]
    rw [pyReplace_cons_ne ' ' _ _ _ (by decide)]
    rw [pyReplace_cons_ne '$' _ _ _ (by decide)]
    rw [pyReplace_cons_ne '{' _ _ _ (by decide)]
    rw [pyReplace_cons_ne 'Y' _ _ _ (by decide)]
    rw [pyReplace_cons_ne '}' _ _ _ (by decide)]
    rw [pyReplace_nil]
    rfl
  have h3 : pyReplace ['$', '{', 'Y', '}', ' ', '$', '{', 'Y', '}']
      (phText ['Y']) ['z'] = ['z', ' ', 'z'] := by
    have hsplit : ['$', '{', 'Y', '}', ' ', '$', '{', 'Y', '}']
        = phText ['Y'] ++ [' ', '$', '{', 'Y', '}'] := rfl
    rw [hsplit, pyReplace_at _ _ _ (by decide)]
    rw [pyReplace_cons_ne ' ' _ _ _ (by decide)]
    have hsplit2 : ['$', '{', 'Y', '}'] = phText ['Y'] ++ ([] : List Char) := rfl
    rw [hsplit2, pyReplace_at _ _ _ (by decide)]
    rw [pyReplace_nil]
    rfl
  have hstep : env_constructor envC5 ['$', '{', 'X', '}', ' ', '$', '{', 'Y', '}']
      = applyGroups envC5 [['Y']]
          (pyReplace ['$', '{', 'X', '}', ' ', '$', '{', 'Y', '}']
            (phText ['X']) ['$', '{', 'Y', '}']) := by
    rw [env_constructor, h1]
    rfl
  rw [hstep, h2]
  have hstep2 : applyGroups envC5 [['Y']] ['$', '{', 'Y', '}', ' ', '$', '{', 'Y', '}']
      = applyGroups envC5 []
          (pyReplace ['$', '{', 'Y', '}', ' ', '$', '{', 'Y', '}']
            (phText ['Y']) ['z']) := rfl
  rw [hstep2, h3]
  rfl

/-- C5 (amended): on a scalar made of clean literal text interleaved
with clean placeholders — literal text and substituted values spell no
dollar sign, so no substituted value can itself form placeholder text —
all of whose names the environment binds to clean values, the resolver
succeeds and returns the scalar with every placeholder — however many,
distinct or repeated — replaced by the value bound to its name; repeated
names receive the same value at every occurrence, the environment being
a fixed map during one resolution.  Outside this fragment the sequential
replacement loop can rewrite earlier substitutions, as the
counterexample shows. -/
theorem C5_resolver_substitutes (env : List Char → Option (List Char)) (segs : List Seg)
    (hwf : ∀ seg ∈ segs, segWf seg = true)
    (hbound : ∀ seg ∈ segs, envBound env seg = true) :
    env_constructor env (render segs) = .ok (render (segs.map (resolveSeg env))) := by
  unfold env_constructor
  rw [pyFindall_render segs hwf]
  apply applyGroups_render env (phNames segs) segs hwf
  · intro g hg
    have hph := (mem_phNames segs g).mp hg
    exact ⟨hwf (.ph g) hph, hbound (.ph g) hph⟩
  · intro n hph
    exact (mem_phNames segs n).mpr hph

/-- C5 (witness): the spec's concrete example — with `TEST_VAR` bound
to `/test/path`, the scalar written as the placeholder for `TEST_VAR`
followed by the literal `/data` resolves to `/test/path/data`; a second
run with the placeholder repeated twice substitutes both occurrences
consistently. -/
theorem C5_witness :
    env_constructor
        (fun n => if n = "TEST_VAR".toList then some "/test/path".toList else none)
        (render [Seg.ph "TEST_VAR".toList, Seg.lit "/data".toList])
      = .ok "/test/path/data".toList
    ∧ env_constructor
        (fun n => if n = "TEST_VAR".toList then some "/test/path".toList else none)
        (render [Seg.ph "TEST_VAR".toList, Seg.lit "/a".toList,
                 Seg.ph "TEST_VAR".toList])
      = .ok "/test/path/a/test/path".toList := by
  constructor
  · rw [C5_resolver_substitutes _ _ (by decide) (by decide)]
    rfl
  · rw [C5_resolver_substitutes _ _ (by decide) (by decide)]
    rfl

/-- C6 (confirmed): whenever the scanner captures a group whose name the
environment does not bind, the resolver fails with the
missing-environment-variable assertion (naming the first such group) and
returns no result at all — the failure aborts the load. -/
theorem C6_missing_env (env : List Char → Option (List Char)) (value n : List Char)
    (hmem : n ∈ pyFindall value) (hunset : env n = none) :
    (∃ m, env_constructor env value = .error (.missingEnv m) ∧ env m = none)
    ∧ ∀ r, env_constructor env value ≠ .ok r := by
  have h := applyGroups_missing env (pyFindall value) value ⟨n, hmem, hunset⟩
  constructor
  · exact h
  · intro r hcon
    rcases h with ⟨m, hm, _⟩
    rw [env_constructor] at hcon
    rw [hm] at hcon
    cases hcon

/-- C6 (witness): with an empty environment, the scalar written as the
placeholder for `NOPE` followed by literal `/x` fails to resolve, with
the missing-variable error and no partial result. -/
theorem C6_witness :
    (∃ m, env_constructor (fun _ => none)
        (render [Seg.ph "NOPE".toList, Seg.lit "/x".toList])
        = .error (.missingEnv m)
      ∧ (fun _ : List Char => (none : Option (List Char))) m = none)
    ∧ ∀ r, env_constructor (fun _ => none)
        (render [Seg.ph "NOPE".toList, Seg.lit "/x".toList]) ≠ .ok r :=
  C6_missing_env (fun _ => none) _ "NOPE".toList
    (by rw [pyFindall_render _ (by decide)]; decide) rfl

/-- C10 (counterexample): the input dollar-brace `a` dollar-brace
close-brace `b` close-brace contains the three-character substring
dollar-brace-close-brace, and the environment binds no variable named by
the empty string; yet the resolver does not look up the empty name and
does not fail: the lazy group of `env_pattern` captures `a${` (up to the
FIRST close brace), which the environment here happens to bind, so
resolution succeeds with a replaced value.  This refutes the claim that
every input containing dollar-brace-close-brace triggers an empty-name
lookup failing when the empty name is unbound. -/
theorem C10_counterexample :
    ['$', '{', 'a'] ++ ['$', '{', '}'] ++ ['b', '}']
      = ['$', '{', 'a', '$', '{', '}', 'b', '}']
    ∧ (fun n : List Char => if n = ['a', '$', '{'] then some ['x'] else none)
        ([] : List Char) = none
    ∧ env_constructor
        (fun n => if n = ['a', '$', '{'] then some ['x'] else none)
        ['$', '{', 'a', '$', '{', '}', 'b', '}']
      = .ok ['x', 'b', '}'] := by
  refine ⟨by decide, rfl, ?_⟩
  have h1 : pyFindall ['$', '{', 'a', '$', '{', '}', 'b', '}'] = [['a', '$', '{']] := by
    rw [pyFindall_ph ['a', '$', '{', '}', 'b', '}'] ['a', '$', '{'] ['b', '}'] (by decide)]
    rw [pyFindall_cons_ne 'b' _ (by decide)]
    rw [pyFindall_cons_ne '}' _ (by decide)]
    rw [pyFindall]
  have h2 : pyReplace ['$', '{', 'a', '$', '{', '}', 'b', '}']
      (phText ['a', '$', '{']) ['x'] = ['x', 'b', '}'] := by
    have hsplit : ['$', '{', 'a', '$', '{', '}', 'b', '}']
        = phText ['a', '$', '{'] ++ ['b', '}'] := rfl
    rw [hsplit]
    rw [pyReplace_at _ _ _ (by decide)]
    rw [pyReplace_cons_ne 'b' _ _ _ (by decide)]
    rw [pyReplace_cons_ne '}' _ _ _ (by decide)]
    rw [pyReplace_nil]
    rfl
  have h3 : env_constructor
      (fun n => if n = ['a', '$', '{'] then some ['x'] else none)
      ['$', '{', 'a', '$', '{', '}', 'b', '}']
      = applyGroups (fun n => if n = ['a', '$', '{'] then some ['x'] else none) []
          (pyReplace ['$', '{', 'a', '$', '{', '}', 'b', '}']
            (phText ['a', '$', '{']) ['x']) := by
    rw [env_constructor, h1]
    rfl
  rw [h3, h2]
  rfl

/-- C10 (amended): the pattern does admit a zero-character placeholder
name: whenever the first placeholder opener of the input is the bare
dollar-brace-close-brace — the input is clean text containing no dollar
sign, then that three-character group — and the environment does not
bind the empty name, resolution looks up the empty name first and fails
with the missing-variable error naming the empty string. -/
theorem C10_empty_name (env : List Char → Option (List Char)) (pre suf : List Char)
    (hpre : ∀ c ∈ pre, c ≠ '$') (henv : env [] = none) :
    env_constructor env (pre ++ '$' :: '{' :: '}' :: suf)
      = .error (.missingEnv []) := by
  rw [env_constructor]
  rw [pyFindall_append_lit _ pre hpre]
  rw [pyFindall_ph ('}' :: suf) [] suf (by rw [takeToBrace]; simp)]
  rw [applyGroups, henv]

/-- C10 (witness): with `p` before and `q` after the bare empty
placeholder and an empty environment, resolution fails with the
missing-variable error for the empty name. -/
theorem C10_witness :
    env_constructor (fun _ => none) (['p'] ++ '$' :: '{' :: '}' :: ['q'])
      = .error (.missingEnv []) :=
  C10_empty_name (fun _ => none) ['p'] ['q'] (by decide) rfl

end YamlArgs
